import Mathlib

/-!
The row/column switch puzzle of `render.cpp`.

A shallow embedding of the puzzle state kept by `SwitchRender` (the win flag, the
sixteen current angles and the sixteen target angles) together with the four pieces
of code that read or write it: `SwitchRender::init`, `SwitchRender::mouseReleaseEvent`,
the animation loop at the head of `SwitchRender::paint`, and the object-ID formula of
`SwitchRender::getObjectID` with the encoding written by the vertex shader.

Modelling conventions.
* C `float` values are exact rationals (`ℚ`); rounding error and overflow of `float`
  are outside the model.
* C `int` values are mathematical integers (`Int`); the only sums formed are the ID
  (bounded by the pixel read back) and `wrongPlaced` (at most `2 * 16`).
* `mSize` is the constant `4` installed by the constructor; loop counters below
  `mSize` range over `Fin 4`, and the two angle arrays have `mSize * mSize = 16`
  cells, indexed by `Fin 16`.
* Everything the code obtains from outside (the pixel read back from the ID
  attachment, the values returned by `rand()`, the milliseconds returned by
  `mTime.restart()`) is an explicit argument.
* Everything the code sends outside (the `winGame` signal, `ev->accept()` against
  `ev->ignore()`, `m_window->update()`) is an explicit result.
-/

namespace Switch

/-! ## Numeric helpers of C and GLSL -/

/-- The conversion `static_cast<int>(f)` of a float: truncation toward zero. -/
def static_cast_int (q : ℚ) : Int :=
  if 0 ≤ q then ⌊q⌋ else ⌈q⌉

/-- The C library function `roundf`: nearest integer, halfway cases away from zero. -/
def roundf (q : ℚ) : ℚ :=
  if 0 ≤ q then ((⌊q + 1 / 2⌋ : Int) : ℚ) else ((⌈q - 1 / 2⌉ : Int) : ℚ)

/-- The GLSL builtin `mod(x, y) = x - y * floor(x / y)`. -/
def glslMod (x y : ℚ) : ℚ :=
  x - y * ((⌊x / y⌋ : Int) : ℚ)

/-! ## Object-ID encoding and decoding -/

/-- The first two channels of `vertObjectID` computed by the vertex shader for the
instance `gl_InstanceID`. -/
def vertObjectID (gl_InstanceID : Nat) : ℚ × ℚ :=
  let floatID : ℚ := ((gl_InstanceID + 1 : Nat) : ℚ)
  (glslMod floatID 10 * 0.1, ((⌊floatID / 10⌋ : Int) : ℚ) * 0.1)

/-- The return expression of `SwitchRender::getObjectID`, as a function of the two
channels `d[0]`, `d[1]` of the pixel read back from the ID attachment. -/
def getObjectID (d0 d1 : ℚ) : Int :=
  static_cast_int (roundf (d0 * 10) + roundf (d1 * 10) * 10) - 1

/-! ## Renderer state -/

/-- The member `mSize`, which the constructor sets to `4` and nothing changes. -/
def mSize : Nat := 4

/-- The members of `SwitchRender` that carry the puzzle. -/
structure SwitchRender where
  /-- The latch `mWin`. -/
  mWin : Bool
  /-- The array `mSwitchAngles`, the angles currently drawn. -/
  mSwitchAngles : Fin 16 → ℚ
  /-- The array `mSwitchAnglesAspire`, the angles the tiles animate toward. -/
  mSwitchAnglesAspire : Fin 16 → ℚ

/-! ## `SwitchRender::init` -/

/-- One pass of the loop body of `SwitchRender::init` for index `i`, where `rand i` is
the value returned by the call of `rand()` in that pass. -/
def initStep (rand : Fin 16 → Nat) (s : SwitchRender) (i : Fin 16) : SwitchRender :=
  let v : Nat := rand i % 2
  { s with
    mSwitchAngles := Function.update s.mSwitchAngles i 0
    mSwitchAnglesAspire := Function.update s.mSwitchAnglesAspire i (v : ℚ) }

/-- The method `SwitchRender::init` (a new game). -/
def init (s : SwitchRender) (rand : Fin 16 → Nat) : SwitchRender :=
  (List.finRange 16).foldl (initStep rand) { s with mWin := false }

/-! ## `SwitchRender::mouseReleaseEvent` -/

/-- What a call of `mouseReleaseEvent` leaves behind: the new state, whether the
signal `winGame` was emitted, whether the event was accepted (as opposed to
ignored), and whether a repaint was requested. -/
structure ClickOutcome where
  state : SwitchRender
  winGame : Bool
  accepted : Bool
  update : Bool

/-- The array index `j * mSize + i` of the tile in column `i` and row `j`. -/
def tileIndex (i j : Fin 4) : Fin 16 :=
  ⟨j.val * mSize + i.val, by unfold mSize; omega⟩

/-- The body of the inner loop of `mouseReleaseEvent` for column `i` and row `j`:
the accumulator holds the target array and the counter `wrongPlaced`. -/
def clickStep (x y : Int) (i : Fin 4) (acc : (Fin 16 → ℚ) × Int) (j : Fin 4) :
    (Fin 16 → ℚ) × Int :=
  let current : ℚ :=
    if (i.val : Int) = x ∨ (j.val : Int) = y then acc.1 (tileIndex i j) + 1
    else acc.1 (tileIndex i j)
  (Function.update acc.1 (tileIndex i j) current,
   acc.2 + (1 - Int.tmod (static_cast_int current) 2))

/-- The two nested loops of `mouseReleaseEvent`, started with `wrongPlaced = 0`. -/
def clickLoop (x y : Int) (aspire : Fin 16 → ℚ) : (Fin 16 → ℚ) × Int :=
  (List.finRange 4).foldl
    (fun acc i => (List.finRange 4).foldl (clickStep x y i) acc) (aspire, 0)

/-- The method `SwitchRender::mouseReleaseEvent`; `d0`, `d1` are the channels of the
pixel that `getObjectID` reads back at the click position. -/
def mouseReleaseEvent (s : SwitchRender) (d0 d1 : ℚ) : ClickOutcome :=
  if s.mWin then
    { state := s, winGame := false, accepted := false, update := false }
  else
    let ID := getObjectID d0 d1
    if ID < 0 then
      { state := s, winGame := false, accepted := false, update := false }
    else
      let x := Int.tmod ID (mSize : Int)
      let y := Int.tdiv ID (mSize : Int)
      let r := clickLoop x y s.mSwitchAnglesAspire
      if r.2 = 0 then
        { state := { s with mSwitchAnglesAspire := r.1, mWin := true },
          winGame := true, accepted := true, update := true }
      else
        { state := { s with mSwitchAnglesAspire := r.1 },
          winGame := false, accepted := true, update := true }

/-! ## The animation loop of `SwitchRender::paint` -/

/-- One pass of the animation loop of `paint` for index `i`: the accumulator holds
the state and the flag `needUpdate`. -/
def paintStep (delta : ℚ) (acc : SwitchRender × Bool) (i : Fin 16) : SwitchRender × Bool :=
  if acc.1.mSwitchAnglesAspire i > acc.1.mSwitchAngles i then
    let animated : ℚ := acc.1.mSwitchAngles i + delta
    ({ acc.1 with
        mSwitchAngles :=
          Function.update acc.1.mSwitchAngles i (min animated (acc.1.mSwitchAnglesAspire i)) },
     true)
  else acc

/-- The state change of `SwitchRender::paint`, where `elapsed` is the number of
milliseconds returned by `mTime.restart()`; the second component is `needUpdate`,
on which the closing `m_window->update()` is conditioned. -/
def paint (s : SwitchRender) (elapsed : Int) : SwitchRender × Bool :=
  let delta : ℚ := (elapsed : ℚ) * 0.003
  (List.finRange 16).foldl (paintStep delta) (s, false)

/-! ## Runs of the event handlers -/

/-- A sequence of pointer releases handled one after the other, each given by the
pixel read back for it; the second component counts the emissions of `winGame`. -/
def clickAll (s : SwitchRender) : List (ℚ × ℚ) → SwitchRender × Nat
  | [] => (s, 0)
  | d :: ds =>
    let o := mouseReleaseEvent s d.1 d.2
    let r := clickAll o.state ds
    (r.1, (if o.winGame then 1 else 0) + r.2)

/-- The pixels read back when the tiles `ids` are hit one after the other: the
colour the vertex shader writes for each of these instances. -/
def tilePixels (ids : List (Fin 16)) : List (ℚ × ℚ) :=
  ids.map (fun c => vertObjectID c.val)

/-- The state after `n` consecutive calls of `paint`, the `k`-th of which sees the
elapsed time `dt k`. -/
def paintSeq (s : SwitchRender) (dt : Nat → Int) : Nat → SwitchRender
  | 0 => s
  | n + 1 => (paint (paintSeq s dt n) (dt n)).1

/-- The states the renderer can be in: the constructor runs `init` on a fresh
object, and afterwards new games, pointer releases (with any pixel read back) and
frames (with a non-negative elapsed time) arrive in any order. -/
inductive Reachable : SwitchRender → Prop
  | construct (s0 : SwitchRender) (rand : Fin 16 → Nat) : Reachable (init s0 rand)
  | newGame (s : SwitchRender) (rand : Fin 16 → Nat) :
      Reachable s → Reachable (init s rand)
  | click (s : SwitchRender) (d0 d1 : ℚ) :
      Reachable s → Reachable (mouseReleaseEvent s d0 d1).state
  | frame (s : SwitchRender) (elapsed : Int) :
      Reachable s → 0 ≤ elapsed → Reachable (paint s elapsed).1

/-! ## Closed forms used in the proofs -/

/-- The target angle of tile `t` after a click decoded to column `x` and row `y`. -/
def toggled (x y : Int) (q : Fin 16 → ℚ) (t : Fin 16) : ℚ :=
  if ((t.val % 4 : Nat) : Int) = x ∨ ((t.val / 4 : Nat) : Int) = y then q t + 1 else q t

/-- The summand that `mouseReleaseEvent` adds to `wrongPlaced` for a tile whose
target angle is `q`. -/
def wrongTerm (q : ℚ) : Int := 1 - Int.tmod (static_cast_int q) 2

/-- The order in which the nested loops of `mouseReleaseEvent` visit the array. -/
def visitOrder : List (Fin 16) :=
  [0, 4, 8, 12, 1, 5, 9, 13, 2, 6, 10, 14, 3, 7, 11, 15]

/-- The loop body of `mouseReleaseEvent`, seen from the array index it touches. -/
def stepAt (x y : Int) (acc : (Fin 16 → ℚ) × Int) (k : Fin 16) : (Fin 16 → ℚ) × Int :=
  (Function.update acc.1 k (toggled x y acc.1 k), acc.2 + wrongTerm (toggled x y acc.1 k))

/-- One frame of animation on a single tile with current angle `c` and target `a`. -/
def advanced (delta c a : ℚ) : ℚ :=
  if a > c then min (c + delta) a else c

/-- Whether a release on tile `c` toggles tile `t`: the condition `i == x || j == y`
of the loop body, for the column and row of `t` and of `c`. -/
def affects (c t : Fin 16) : Bool :=
  decide (t.val % 4 = c.val % 4 ∨ t.val / 4 = c.val / 4)

/-- The seven tiles in the row and the column of tile `u`. -/
def cross (u : Fin 16) : List (Fin 16) :=
  (List.finRange 16).filter (fun c => affects c u)

/-- For each tile of `us` whose target `n` is even, the seven tiles of its cross. -/
def presses (n : Fin 16 → Nat) : List (Fin 16) → List (Fin 16)
  | [] => []
  | u :: us => (if n u % 2 = 0 then cross u else []) ++ presses n us

/-- A sequence of tiles to release on that wins the grid with targets `n`. -/
def solution (n : Fin 16 → Nat) : List (Fin 16) :=
  0 :: 0 :: presses n (List.finRange 16)

/-- The target of tile `t` after releases on the tiles `ids`, the latch left aside. -/
def pressed (ids : List (Fin 16)) (n : Fin 16 → Nat) (t : Fin 16) : Nat :=
  n t + ids.countP (fun c => affects c t)

/-- The random draws that put `1` on the row and the column of tile `0` and `0`
on the nine other tiles. -/
def crossBits (t : Fin 16) : Nat :=
  if t.val % 4 = 0 ∨ t.val / 4 = 0 then 1 else 0

/-- A renderer before its first `init`. -/
def blank : SwitchRender :=
  { mWin := false, mSwitchAngles := fun _ => 0, mSwitchAnglesAspire := fun _ => 0 }

/-! ## The click loop -/

theorem finRange_four : List.finRange 4 = [0, 1, 2, 3] := by decide

theorem clickStep_eq_stepAt (x y : Int) (i j : Fin 4) (acc : (Fin 16 → ℚ) × Int) :
    clickStep x y i acc j = stepAt x y acc (tileIndex i j) := by
  have hi : (tileIndex i j).val % 4 = i.val := by
    simp only [tileIndex, mSize]; omega
  have hj : (tileIndex i j).val / 4 = j.val := by
    simp only [tileIndex, mSize]; omega
  simp only [clickStep, stepAt, toggled, wrongTerm, hi, hj]

theorem clickLoop_eq_foldl (x y : Int) (a : Fin 16 → ℚ) :
    clickLoop x y a = visitOrder.foldl (stepAt x y) (a, 0) := by
  simp only [clickLoop, finRange_four, List.foldl, clickStep_eq_stepAt, visitOrder]
  rfl

theorem foldl_stepAt (x y : Int) (ks : List (Fin 16)) (hks : ks.Nodup)
    (acc : (Fin 16 → ℚ) × Int) :
    (∀ t, (ks.foldl (stepAt x y) acc).1 t = if t ∈ ks then toggled x y acc.1 t else acc.1 t) ∧
    (ks.foldl (stepAt x y) acc).2 =
      acc.2 + (ks.map (fun k => wrongTerm (toggled x y acc.1 k))).sum := by
  induction ks using List.reverseRecOn with
  | nil => simp
  | append_singleton ks k ih =>
    have hnd := List.nodup_append.mp hks
    have hk : k ∉ ks := fun h => hnd.2.2 h (List.mem_singleton_self k)
    obtain ⟨ih1, ih2⟩ := ih hnd.1
    have hread : toggled x y (ks.foldl (stepAt x y) acc).1 k = toggled x y acc.1 k := by
      simp only [toggled, ih1 k, if_neg hk]
    rw [List.foldl_append]
    simp only [List.foldl, stepAt, hread]
    refine ⟨fun t => ?_, ?_⟩
    · by_cases htk : t = k
      · subst htk; simp
      · simp [Function.update_noteq htk, ih1 t, htk]
    · rw [ih2]; simp [add_assoc]

theorem visitOrder_nodup : visitOrder.Nodup := by decide

theorem mem_visitOrder (t : Fin 16) : t ∈ visitOrder := by
  revert t; decide

theorem clickLoop_fst (x y : Int) (a : Fin 16 → ℚ) :
    (clickLoop x y a).1 = toggled x y a := by
  funext t
  rw [clickLoop_eq_foldl, (foldl_stepAt x y visitOrder visitOrder_nodup (a, 0)).1 t,
    if_pos (mem_visitOrder t)]

theorem wrongTerm_nonneg (q : ℚ) : 0 ≤ wrongTerm q := by
  have h := Int.tmod_lt_of_pos (static_cast_int q) (show (0 : Int) < 2 by decide)
  unfold wrongTerm; omega

theorem wrongTerm_eq_zero (q : ℚ) :
    wrongTerm q = 0 ↔ Int.tmod (static_cast_int q) 2 = 1 := by
  unfold wrongTerm; omega

theorem sum_eq_zero_of_nonneg (l : List Int) (h : ∀ z ∈ l, 0 ≤ z) :
    l.sum = 0 ↔ ∀ z ∈ l, z = 0 := by
  induction l with
  | nil => simp
  | cons a l ih =>
    have ha : 0 ≤ a := h a (List.mem_cons_self a l)
    have hl : ∀ z ∈ l, 0 ≤ z := fun z hz => h z (List.mem_cons_of_mem a hz)
    have hs : 0 ≤ l.sum := List.sum_nonneg hl
    simp only [List.sum_cons, List.mem_cons, forall_eq_or_imp]
    rw [← ih hl]
    constructor
    · intro hsum; constructor <;> omega
    · rintro ⟨h1, h2⟩; omega

theorem clickLoop_snd_eq_zero (x y : Int) (a : Fin 16 → ℚ) :
    (clickLoop x y a).2 = 0 ↔ ∀ t, Int.tmod (static_cast_int (toggled x y a t)) 2 = 1 := by
  rw [clickLoop_eq_foldl, (foldl_stepAt x y visitOrder visitOrder_nodup (a, 0)).2]
  simp only [zero_add]
  rw [sum_eq_zero_of_nonneg]
  · constructor
    · intro h t
      rw [← wrongTerm_eq_zero]
      exact h _ (List.mem_map.mpr ⟨t, mem_visitOrder t, rfl⟩)
    · intro h z hz
      obtain ⟨t, -, rfl⟩ := List.mem_map.mp hz
      exact (wrongTerm_eq_zero _).mpr (h t)
  · intro z hz
    obtain ⟨t, -, rfl⟩ := List.mem_map.mp hz
    exact wrongTerm_nonneg _

/-! ## `mouseReleaseEvent` case by case -/

theorem mouseReleaseEvent_won (s : SwitchRender) (d0 d1 : ℚ) (h : s.mWin = true) :
    mouseReleaseEvent s d0 d1 =
      { state := s, winGame := false, accepted := false, update := false } := by
  simp [mouseReleaseEvent, h]

theorem mouseReleaseEvent_miss (s : SwitchRender) (d0 d1 : ℚ) (h : getObjectID d0 d1 < 0) :
    mouseReleaseEvent s d0 d1 =
      { state := s, winGame := false, accepted := false, update := false } := by
  simp [mouseReleaseEvent, h]

theorem mouseReleaseEvent_hit (s : SwitchRender) (d0 d1 : ℚ) (hw : s.mWin = false)
    (h : 0 ≤ getObjectID d0 d1) :
    (mouseReleaseEvent s d0 d1).state.mSwitchAnglesAspire =
        toggled (Int.tmod (getObjectID d0 d1) 4) (Int.tdiv (getObjectID d0 d1) 4)
          s.mSwitchAnglesAspire ∧
    (mouseReleaseEvent s d0 d1).state.mSwitchAngles = s.mSwitchAngles ∧
    ((mouseReleaseEvent s d0 d1).state.mWin = true ↔
      ∀ t, Int.tmod (static_cast_int
        ((mouseReleaseEvent s d0 d1).state.mSwitchAnglesAspire t)) 2 = 1) ∧
    (mouseReleaseEvent s d0 d1).winGame = (mouseReleaseEvent s d0 d1).state.mWin ∧
    (mouseReleaseEvent s d0 d1).accepted = true := by
  have hn : ¬ getObjectID d0 d1 < 0 := not_lt.mpr h
  by_cases hz : (clickLoop (Int.tmod (getObjectID d0 d1) 4) (Int.tdiv (getObjectID d0 d1) 4)
      s.mSwitchAnglesAspire).2 = 0
  · have hall := (clickLoop_snd_eq_zero _ _ _).mp hz
    simp only [mouseReleaseEvent, mSize, Nat.cast_ofNat, hw, hn, hz, clickLoop_fst]
    simpa using hall
  · have hall := mt (clickLoop_snd_eq_zero _ _ _).mpr hz
    simp only [mouseReleaseEvent, mSize, Nat.cast_ofNat, hw, hn, hz, clickLoop_fst]
    simpa using hall

/-! ## `init` in closed form -/

theorem foldl_initStep (rand : Fin 16 → Nat) (ks : List (Fin 16)) (s : SwitchRender) :
    (ks.foldl (initStep rand) s).mWin = s.mWin ∧
    (∀ t, (ks.foldl (initStep rand) s).mSwitchAngles t =
      if t ∈ ks then 0 else s.mSwitchAngles t) ∧
    (∀ t, (ks.foldl (initStep rand) s).mSwitchAnglesAspire t =
      if t ∈ ks then ((rand t % 2 : Nat) : ℚ) else s.mSwitchAnglesAspire t) := by
  induction ks using List.reverseRecOn with
  | nil => simp
  | append_singleton ks k ih =>
    obtain ⟨ih1, ih2, ih3⟩ := ih
    rw [List.foldl_append]
    simp only [List.foldl, initStep]
    refine ⟨ih1, fun t => ?_, fun t => ?_⟩
    · by_cases htk : t = k
      · subst htk; simp
      · simp [Function.update_noteq htk, ih2 t, htk]
    · by_cases htk : t = k
      · subst htk; simp
      · simp [Function.update_noteq htk, ih3 t, htk]

theorem init_spec (s : SwitchRender) (rand : Fin 16 → Nat) :
    (init s rand).mWin = false ∧
    (∀ t, (init s rand).mSwitchAngles t = 0) ∧
    (∀ t, (init s rand).mSwitchAnglesAspire t = ((rand t % 2 : Nat) : ℚ)) := by
  obtain ⟨h1, h2, h3⟩ := foldl_initStep rand (List.finRange 16) { s with mWin := false }
  refine ⟨h1, fun t => ?_, fun t => ?_⟩
  · have h := h2 t
    rw [if_pos (List.mem_finRange t)] at h
    exact h
  · have h := h3 t
    rw [if_pos (List.mem_finRange t)] at h
    exact h

/-! ## `paint` in closed form -/

theorem foldl_paintStep (delta : ℚ) (ks : List (Fin 16)) (hks : ks.Nodup)
    (s : SwitchRender) (b : Bool) :
    (ks.foldl (paintStep delta) (s, b)).1.mWin = s.mWin ∧
    (ks.foldl (paintStep delta) (s, b)).1.mSwitchAnglesAspire = s.mSwitchAnglesAspire ∧
    (∀ t, (ks.foldl (paintStep delta) (s, b)).1.mSwitchAngles t =
      if t ∈ ks then advanced delta (s.mSwitchAngles t) (s.mSwitchAnglesAspire t)
      else s.mSwitchAngles t) ∧
    ((ks.foldl (paintStep delta) (s, b)).2 = true ↔
      b = true ∨ ∃ k ∈ ks, s.mSwitchAngles k < s.mSwitchAnglesAspire k) := by
  induction ks using List.reverseRecOn with
  | nil => simp
  | append_singleton ks k ih =>
    have hnd := List.nodup_append.mp hks
    have hk : k ∉ ks := fun h => hnd.2.2 h (List.mem_singleton_self k)
    obtain ⟨ih1, ih2, ih3, ih4⟩ := ih hnd.1
    have hcur : (ks.foldl (paintStep delta) (s, b)).1.mSwitchAngles k = s.mSwitchAngles k := by
      rw [ih3 k, if_neg hk]
    rw [List.foldl_append]
    simp only [List.foldl]
    by_cases hgt : s.mSwitchAnglesAspire k > s.mSwitchAngles k
    · have hstep : paintStep delta (ks.foldl (paintStep delta) (s, b)) k =
          ({ (ks.foldl (paintStep delta) (s, b)).1 with
              mSwitchAngles := Function.update
                (ks.foldl (paintStep delta) (s, b)).1.mSwitchAngles k
                (min (s.mSwitchAngles k + delta) (s.mSwitchAnglesAspire k)) }, true) := by
        simp only [paintStep, ih2, hcur, if_pos hgt]
      rw [hstep]
      refine ⟨ih1, ih2, fun t => ?_, ?_⟩
      · by_cases htk : t = k
        · subst htk; simp [advanced, hgt]
        · simp [Function.update_noteq htk, ih3 t, htk]
      · simp only [true_iff]
        exact Or.inr ⟨k, by simp, hgt⟩
    · have hstep : paintStep delta (ks.foldl (paintStep delta) (s, b)) k =
          ks.foldl (paintStep delta) (s, b) := by
        simp only [paintStep, ih2, hcur, if_neg hgt]
      rw [hstep]
      refine ⟨ih1, ih2, fun t => ?_, ?_⟩
      · by_cases htk : t = k
        · subst htk; simp [advanced, hgt, hcur]
        · simp [ih3 t, htk]
      · rw [ih4]
        constructor
        · rintro (hb | ⟨j, hj, hlt⟩)
          · exact Or.inl hb
          · exact Or.inr ⟨j, by simp [hj], hlt⟩
        · rintro (hb | ⟨j, hj, hlt⟩)
          · exact Or.inl hb
          · rcases List.mem_append.mp hj with hj1 | hj1
            · exact Or.inr ⟨j, hj1, hlt⟩
            · have : j = k := by simpa using hj1
              subst this
              exact absurd hlt hgt

theorem paint_eq_foldl (s : SwitchRender) (elapsed : Int) :
    paint s elapsed =
      (List.finRange 16).foldl (paintStep ((elapsed : ℚ) * 0.003)) (s, false) := rfl

theorem paint_spec (s : SwitchRender) (elapsed : Int) :
    (paint s elapsed).1.mWin = s.mWin ∧
    (paint s elapsed).1.mSwitchAnglesAspire = s.mSwitchAnglesAspire ∧
    (∀ t, (paint s elapsed).1.mSwitchAngles t =
      advanced ((elapsed : ℚ) * 0.003) (s.mSwitchAngles t) (s.mSwitchAnglesAspire t)) ∧
    ((paint s elapsed).2 = true ↔ ∃ k, s.mSwitchAngles k < s.mSwitchAnglesAspire k) := by
  obtain ⟨h1, h2, h3, h4⟩ :=
    foldl_paintStep ((elapsed : ℚ) * 0.003) (List.finRange 16) (List.nodup_finRange 16) s false
  rw [paint_eq_foldl]
  refine ⟨h1, h2, fun t => ?_, ?_⟩
  · rw [h3 t, if_pos (List.mem_finRange t)]
  · rw [h4]
    constructor
    · rintro (hb | ⟨k, -, hk⟩)
      · exact absurd hb (by decide)
      · exact ⟨k, hk⟩
    · rintro ⟨k, hk⟩
      exact Or.inr ⟨k, List.mem_finRange k, hk⟩

/-! ## Object IDs -/

theorem getObjectID_vertObjectID (i : Fin 16) :
    getObjectID (vertObjectID i.val).1 (vertObjectID i.val).2 = (i.val : Int) := by
  fin_cases i <;>
    norm_num [getObjectID, vertObjectID, glslMod, roundf, static_cast_int]

theorem getObjectID_background : getObjectID 0 0 = -1 := by
  norm_num [getObjectID, roundf, static_cast_int]

theorem tileIndex_surjective (t : Fin 16) : ∃ i j : Fin 4, tileIndex i j = t :=
  ⟨⟨t.val % 4, Nat.mod_lt _ (by decide)⟩, ⟨t.val / 4, by omega⟩, by
    apply Fin.ext; simp only [tileIndex, mSize]; omega⟩

theorem toggled_tileIndex (ID : Fin 16) (q : Fin 16 → ℚ) (i j : Fin 4) :
    toggled (Int.tmod (ID.val : Int) 4) (Int.tdiv (ID.val : Int) 4) q (tileIndex i j) =
      q (tileIndex i j) + (if i.val = ID.val % 4 ∨ j.val = ID.val / 4 then 1 else 0) := by
  have hi : (tileIndex i j).val % 4 = i.val := by
    simp only [tileIndex, mSize]; omega
  have hj : (tileIndex i j).val / 4 = j.val := by
    simp only [tileIndex, mSize]; omega
  have hx : Int.tmod (ID.val : Int) 4 = ((ID.val % 4 : Nat) : Int) := by
    rw [Int.tmod_eq_emod (by omega) (by decide)]; rfl
  have hy : Int.tdiv (ID.val : Int) 4 = ((ID.val / 4 : Nat) : Int) := by
    rw [Int.tdiv_eq_ediv (by omega) (by decide)]; rfl
  simp only [toggled, hi, hj, hx, hy, Nat.cast_inj]
  split <;> simp

/-! ## Monotonicity and the latch -/

theorem le_toggled (x y : Int) (q : Fin 16 → ℚ) (t : Fin 16) : q t ≤ toggled x y q t := by
  unfold toggled
  split
  · linarith
  · exact le_refl _

theorem mouseReleaseEvent_mono (s : SwitchRender) (d0 d1 : ℚ) :
    (mouseReleaseEvent s d0 d1).state.mSwitchAngles = s.mSwitchAngles ∧
    ∀ t, s.mSwitchAnglesAspire t ≤ (mouseReleaseEvent s d0 d1).state.mSwitchAnglesAspire t := by
  cases hw : s.mWin with
  | true => rw [mouseReleaseEvent_won s d0 d1 hw]; exact ⟨rfl, fun t => le_refl _⟩
  | false =>
    by_cases hID : getObjectID d0 d1 < 0
    · rw [mouseReleaseEvent_miss s d0 d1 hID]; exact ⟨rfl, fun t => le_refl _⟩
    · have h := mouseReleaseEvent_hit s d0 d1 hw (not_lt.mp hID)
      refine ⟨h.2.1, fun t => ?_⟩
      rw [h.1]
      exact le_toggled _ _ _ t

theorem mouseReleaseEvent_winGame (s : SwitchRender) (d0 d1 : ℚ)
    (h : (mouseReleaseEvent s d0 d1).winGame = true) :
    (mouseReleaseEvent s d0 d1).state.mWin = true := by
  cases hw : s.mWin with
  | true => rw [mouseReleaseEvent_won s d0 d1 hw] at h; exact absurd h Bool.false_ne_true
  | false =>
    by_cases hID : getObjectID d0 d1 < 0
    · rw [mouseReleaseEvent_miss s d0 d1 hID] at h; exact absurd h Bool.false_ne_true
    · rw [← (mouseReleaseEvent_hit s d0 d1 hw (not_lt.mp hID)).2.2.2.1]; exact h

theorem clickAll_won (s : SwitchRender) (ds : List (ℚ × ℚ)) (h : s.mWin = true) :
    clickAll s ds = (s, 0) := by
  induction ds with
  | nil => rfl
  | cons d ds ih =>
    simp only [clickAll, mouseReleaseEvent_won s d.1 d.2 h, ih]
    rfl

theorem clickAll_winGame_le_one (s : SwitchRender) (ds : List (ℚ × ℚ)) :
    (clickAll s ds).2 ≤ 1 := by
  induction ds generalizing s with
  | nil => simp [clickAll]
  | cons d ds ih =>
    simp only [clickAll]
    cases hg : (mouseReleaseEvent s d.1 d.2).winGame with
    | true =>
      rw [clickAll_won _ ds (mouseReleaseEvent_winGame s d.1 d.2 hg)]
      simp
    | false =>
      have := ih (mouseReleaseEvent s d.1 d.2).state
      simpa using this

theorem advanced_le (delta c a : ℚ) (h : c ≤ a) : advanced delta c a ≤ a := by
  unfold advanced
  split
  · exact min_le_right _ _
  · exact h

/-! ## Win detection along a run -/

theorem static_cast_int_of_nonneg (q : ℚ) (h : 0 ≤ q) :
    Int.tmod (static_cast_int q) 2 = ⌊q⌋ % 2 := by
  rw [static_cast_int, if_pos h, Int.tmod_eq_emod (Int.floor_nonneg.mpr h) (by decide)]

theorem clickAll_cons (s : SwitchRender) (d : ℚ × ℚ) (ds : List (ℚ × ℚ)) :
    (clickAll s (d :: ds)).1 = (clickAll (mouseReleaseEvent s d.1 d.2).state ds).1 := rfl

theorem clickAll_win_iff (s : SwitchRender) (ds : List (ℚ × ℚ))
    (hJ : s.mWin = true ↔ ∀ t, Int.tmod (static_cast_int (s.mSwitchAnglesAspire t)) 2 = 1)
    (hds : ∀ d ∈ ds, 0 ≤ getObjectID d.1 d.2) :
    (clickAll s ds).1.mWin = true ↔
      ∀ t, Int.tmod (static_cast_int ((clickAll s ds).1.mSwitchAnglesAspire t)) 2 = 1 := by
  induction ds generalizing s with
  | nil => exact hJ
  | cons d ds ih =>
    rw [clickAll_cons]
    apply ih
    · cases hw : s.mWin with
      | true => rw [mouseReleaseEvent_won s d.1 d.2 hw]; exact hJ
      | false =>
        exact (mouseReleaseEvent_hit s d.1 d.2 hw (hds d (List.mem_cons_self d ds))).2.2.1
    · exact fun e he => hds e (List.mem_cons_of_mem d he)

theorem clickAll_nonneg (s : SwitchRender) (ds : List (ℚ × ℚ))
    (h : ∀ t, 0 ≤ s.mSwitchAnglesAspire t) (t : Fin 16) :
    0 ≤ (clickAll s ds).1.mSwitchAnglesAspire t := by
  induction ds generalizing s with
  | nil => exact h t
  | cons d ds ih =>
    rw [clickAll_cons]
    exact ih _ (fun u => le_trans (h u) ((mouseReleaseEvent_mono s d.1 d.2).2 u))

/-! ## Solving the puzzle -/

theorem static_cast_int_natCast (m : Nat) : static_cast_int ((m : Nat) : ℚ) = (m : Int) := by
  rw [static_cast_int, if_pos (Nat.cast_nonneg m)]
  exact Int.floor_natCast m

theorem tmod_natCast_two (m : Nat) : Int.tmod (m : Int) 2 = 1 ↔ m % 2 = 1 := by
  rw [Int.tmod_eq_emod (Int.natCast_nonneg m) (by decide)]
  omega

theorem toggled_natCast (c : Fin 16) (n : Fin 16 → Nat) (t : Fin 16) :
    toggled (Int.tmod (c.val : Int) 4) (Int.tdiv (c.val : Int) 4) (fun u => ((n u : Nat) : ℚ)) t =
      ((pressed [c] n t : Nat) : ℚ) := by
  obtain ⟨i, j, rfl⟩ := tileIndex_surjective t
  have hi : (tileIndex i j).val % 4 = i.val := by
    simp only [tileIndex, mSize]; omega
  have hj : (tileIndex i j).val / 4 = j.val := by
    simp only [tileIndex, mSize]; omega
  rw [toggled_tileIndex]
  by_cases h : i.val = c.val % 4 ∨ j.val = c.val / 4
  · simp [pressed, affects, hi, hj, h]
  · simp [pressed, affects, hi, hj, h]

theorem pressed_cons (c : Fin 16) (ids : List (Fin 16)) (n : Fin 16 → Nat) (t : Fin 16) :
    pressed (c :: ids) n t = pressed ids (pressed [c] n) t := by
  simp only [pressed, List.countP_cons, List.countP_nil]
  omega

theorem mouseReleaseEvent_natCast (s : SwitchRender) (c : Fin 16) (n : Fin 16 → Nat)
    (hw : s.mWin = false) (hn : s.mSwitchAnglesAspire = fun u => ((n u : Nat) : ℚ)) :
    (mouseReleaseEvent s (vertObjectID c.val).1 (vertObjectID c.val).2).state.mSwitchAnglesAspire
        = (fun u => ((pressed [c] n u : Nat) : ℚ)) ∧
    ((mouseReleaseEvent s (vertObjectID c.val).1 (vertObjectID c.val).2).state.mWin = true ↔
      ∀ t, pressed [c] n t % 2 = 1) := by
  have hid := getObjectID_vertObjectID c
  have hit := mouseReleaseEvent_hit s (vertObjectID c.val).1 (vertObjectID c.val).2 hw
    (by rw [hid]; exact Int.natCast_nonneg _)
  have hval : (mouseReleaseEvent s (vertObjectID c.val).1
      (vertObjectID c.val).2).state.mSwitchAnglesAspire =
      (fun u => ((pressed [c] n u : Nat) : ℚ)) := by
    rw [hit.1, hid, hn]
    funext t
    exact toggled_natCast c n t
  refine ⟨hval, ?_⟩
  rw [hit.2.2.1, hval]
  constructor
  · intro h t
    have := h t
    rwa [static_cast_int_natCast, tmod_natCast_two] at this
  · intro h t
    show Int.tmod (static_cast_int ((pressed [c] n t : Nat) : ℚ)) 2 = 1
    rw [static_cast_int_natCast, tmod_natCast_two]
    exact h t

theorem clickAll_tilePixels_cons (s : SwitchRender) (c : Fin 16) (ids : List (Fin 16)) :
    (clickAll s (tilePixels (c :: ids))).1 =
      (clickAll (mouseReleaseEvent s (vertObjectID c.val).1 (vertObjectID c.val).2).state
        (tilePixels ids)).1 := rfl

theorem clickAll_wins (ids : List (Fin 16)) (hne : ids ≠ []) (s : SwitchRender)
    (n : Fin 16 → Nat) (hw : s.mWin = false)
    (hn : s.mSwitchAnglesAspire = fun u => ((n u : Nat) : ℚ))
    (hodd : ∀ t, pressed ids n t % 2 = 1) :
    (clickAll s (tilePixels ids)).1.mWin = true := by
  induction ids generalizing s n with
  | nil => exact absurd rfl hne
  | cons c ids ih =>
    obtain ⟨hval, hwin⟩ := mouseReleaseEvent_natCast s c n hw hn
    rw [clickAll_tilePixels_cons]
    cases hm : (mouseReleaseEvent s (vertObjectID c.val).1 (vertObjectID c.val).2).state.mWin with
    | true => rw [clickAll_won _ _ hm]; exact hm
    | false =>
      cases ids with
      | nil =>
        have : (mouseReleaseEvent s (vertObjectID c.val).1
            (vertObjectID c.val).2).state.mWin = true := hwin.mpr hodd
        rw [hm] at this
        exact absurd this Bool.false_ne_true
      | cons c2 ids2 =>
        exact ih (List.cons_ne_nil _ _) _ (pressed [c] n) hm hval
          (fun t => by rw [← pressed_cons]; exact hodd t)

theorem cross_parity (u t : Fin 16) :
    (cross u).countP (fun c => affects c t) % 2 = if t = u then 1 else 0 := by
  revert u t; decide

theorem presses_parity (n : Fin 16 → Nat) (us : List (Fin 16)) (hus : us.Nodup) (t : Fin 16) :
    (presses n us).countP (fun c => affects c t) % 2 =
      if t ∈ us ∧ n t % 2 = 0 then 1 else 0 := by
  induction us with
  | nil => simp [presses]
  | cons u us ih =>
    have hu : u ∉ us := (List.nodup_cons.mp hus).1
    have ih2 := ih (List.nodup_cons.mp hus).2
    have hc := cross_parity u t
    simp only [presses, List.countP_append]
    by_cases htu : t = u
    · subst htu
      rw [if_pos rfl] at hc
      simp only [hu, false_and, if_false] at ih2
      by_cases he : n t % 2 = 0
      · simp only [if_pos he, List.mem_cons, true_or, true_and]; omega
      · simp only [if_neg he, List.mem_cons, true_or, true_and, List.countP_nil]; omega
    · rw [if_neg htu] at hc
      simp only [List.mem_cons, htu, false_or]
      by_cases he : n u % 2 = 0
      · simp only [if_pos he]; omega
      · simp only [if_neg he, List.countP_nil]; omega

theorem solution_odd (n : Fin 16 → Nat) (t : Fin 16) : pressed (solution n) n t % 2 = 1 := by
  have h := presses_parity n (List.finRange 16) (List.nodup_finRange 16) t
  simp only [List.mem_finRange, true_and] at h
  simp only [pressed, solution, List.countP_cons]
  by_cases he : n t % 2 = 0
  · rw [if_pos he] at h; omega
  · rw [if_neg he] at h; omega

/-! ## Convergence of the animation -/

theorem advanced_ge (delta c a lo : ℚ) (hd : 3 / 1000 ≤ delta) (hca : c ≤ a)
    (hlo : min lo a ≤ c) : min (lo + 3 / 1000) a ≤ advanced delta c a := by
  unfold advanced
  split
  · rename_i hgt
    have hlo2 : lo ≤ c := by
      rcases min_le_iff.mp hlo with h | h
      · exact h
      · linarith
    apply le_min
    · exact le_trans (min_le_left _ _) (by linarith)
    · exact min_le_right _ _
  · rename_i hgt
    have : c = a := le_antisymm hca (not_lt.mp hgt)
    rw [this]
    exact min_le_right _ _

theorem paintSeq_succ (s : SwitchRender) (dt : Nat → Int) (n : Nat) :
    paintSeq s dt (n + 1) = (paint (paintSeq s dt n) (dt n)).1 := rfl

theorem paintSeq_keeps (s : SwitchRender) (dt : Nat → Int) (n : Nat) :
    (paintSeq s dt n).mWin = s.mWin ∧
    (paintSeq s dt n).mSwitchAnglesAspire = s.mSwitchAnglesAspire := by
  induction n with
  | zero => exact ⟨rfl, rfl⟩
  | succ n ih =>
    obtain ⟨p1, p2, -, -⟩ := paint_spec (paintSeq s dt n) (dt n)
    rw [paintSeq_succ, p1, p2]
    exact ih

theorem paintSeq_bounds (s : SwitchRender) (dt : Nat → Int)
    (h : ∀ t, s.mSwitchAngles t ≤ s.mSwitchAnglesAspire t) (hdt : ∀ k, 0 < dt k) (n : Nat) :
    (paintSeq s dt n).mSwitchAnglesAspire = s.mSwitchAnglesAspire ∧
    ∀ t, min (s.mSwitchAngles t + (n : ℚ) * (3 / 1000)) (s.mSwitchAnglesAspire t) ≤
          (paintSeq s dt n).mSwitchAngles t ∧
        (paintSeq s dt n).mSwitchAngles t ≤ s.mSwitchAnglesAspire t := by
  induction n with
  | zero =>
    refine ⟨rfl, fun t => ⟨?_, h t⟩⟩
    simp only [paintSeq, Nat.cast_zero, zero_mul, add_zero]
    exact min_le_left _ _
  | succ n ih =>
    obtain ⟨ih1, ih2⟩ := ih
    obtain ⟨-, p2, p3, -⟩ := paint_spec (paintSeq s dt n) (dt n)
    have hd : (3 / 1000 : ℚ) ≤ (dt n : ℚ) * 0.003 := by
      have h1 : (1 : ℚ) ≤ (dt n : ℚ) := by exact_mod_cast hdt n
      norm_num
      linarith
    rw [paintSeq_succ]
    refine ⟨?_, fun t => ⟨?_, ?_⟩⟩
    · rw [p2, ih1]
    · rw [p3 t, ih1]
      have := advanced_ge ((dt n : ℚ) * 0.003) ((paintSeq s dt n).mSwitchAngles t)
        (s.mSwitchAnglesAspire t) (s.mSwitchAngles t + (n : ℚ) * (3 / 1000)) hd
        (ih2 t).2 (ih2 t).1
      have e : s.mSwitchAngles t + ((n + 1 : Nat) : ℚ) * (3 / 1000) =
          s.mSwitchAngles t + (n : ℚ) * (3 / 1000) + 3 / 1000 := by
        push_cast; ring
      rw [e]
      exact this
    · rw [p3 t, ih1]
      exact advanced_le _ _ _ (ih2 t).2

theorem paintSeq_reaches (s : SwitchRender) (dt : Nat → Int)
    (h : ∀ t, s.mSwitchAngles t ≤ s.mSwitchAnglesAspire t) (hdt : ∀ k, 0 < dt k) :
    ∃ n, ∀ t, (paintSeq s dt n).mSwitchAngles t = (paintSeq s dt n).mSwitchAnglesAspire t := by
  obtain ⟨n, hn⟩ := exists_nat_ge
    ((∑ t, (s.mSwitchAnglesAspire t - s.mSwitchAngles t)) * (1000 / 3))
  refine ⟨n, fun t => ?_⟩
  obtain ⟨b1, b2⟩ := paintSeq_bounds s dt h hdt n
  rw [b1]
  have hgap : s.mSwitchAnglesAspire t - s.mSwitchAngles t ≤
      ∑ u, (s.mSwitchAnglesAspire u - s.mSwitchAngles u) :=
    Finset.single_le_sum (f := fun u => s.mSwitchAnglesAspire u - s.mSwitchAngles u)
      (fun u _ => sub_nonneg.mpr (h u)) (Finset.mem_univ t)
  have hreach : s.mSwitchAnglesAspire t ≤ s.mSwitchAngles t + (n : ℚ) * (3 / 1000) := by
    linarith
  have := (b2 t).1
  rw [min_eq_right hreach] at this
  exact le_antisymm (b2 t).2 this

/-! ## Claims -/

/-- Claim C1: in a grid that is not won, a pointer release whose pixel decodes to the
tile index `ID` in `0..15` adds exactly one to the target angle of every tile `(i, j)`
with `i = ID mod 4` or `j = ID div 4`, leaves the other target angles and every current
angle as they were, and the tiles so changed are seven in number (the clicked tile
counted once); the tiles `(i, j)` exhaust the array. -/
theorem mouseReleaseEvent_toggles_row_and_column (s : SwitchRender) (d0 d1 : ℚ)
    (ID : Fin 16) (hw : s.mWin = false) (hID : getObjectID d0 d1 = (ID.val : Int)) :
    (∀ i j : Fin 4,
      (mouseReleaseEvent s d0 d1).state.mSwitchAnglesAspire (tileIndex i j) =
        s.mSwitchAnglesAspire (tileIndex i j) +
          (if i.val = ID.val % 4 ∨ j.val = ID.val / 4 then 1 else 0)) ∧
    (mouseReleaseEvent s d0 d1).state.mSwitchAngles = s.mSwitchAngles ∧
    (Finset.univ.filter
      (fun p : Fin 4 × Fin 4 => p.1.val = ID.val % 4 ∨ p.2.val = ID.val / 4)).card = 7 ∧
    (∀ t : Fin 16, ∃ i j : Fin 4, tileIndex i j = t) := by
  have h := mouseReleaseEvent_hit s d0 d1 hw (by rw [hID]; omega)
  refine ⟨fun i j => ?_, h.2.1, ?_, tileIndex_surjective⟩
  · rw [h.1, hID, toggled_tileIndex]
  · clear h hID
    revert ID; decide

/-- The scenario of claim C1: with every target at `1`, a release on tile `(0, 0)`
brings row `0` and column `0` to `2` and leaves the other nine tiles at `1`. -/
theorem mouseReleaseEvent_toggles_row_and_column_witness :
    getObjectID (vertObjectID 0).1 (vertObjectID 0).2 = ((0 : Fin 16).val : Int) ∧
    ∀ i j : Fin 4,
      (mouseReleaseEvent
        { mWin := false, mSwitchAngles := fun _ => 0, mSwitchAnglesAspire := fun _ => 1 }
        (vertObjectID 0).1 (vertObjectID 0).2).state.mSwitchAnglesAspire (tileIndex i j) =
        if i.val = 0 ∨ j.val = 0 then 2 else 1 := by
  refine ⟨getObjectID_vertObjectID 0, fun i j => ?_⟩
  rw [(mouseReleaseEvent_toggles_row_and_column
    { mWin := false, mSwitchAngles := fun _ => 0, mSwitchAnglesAspire := fun _ => 1 }
    (vertObjectID 0).1 (vertObjectID 0).2 0 rfl (getObjectID_vertObjectID 0)).1 i j]
  by_cases h : i.val = 0 ∨ j.val = 0
  · simp only [Nat.zero_mod, Nat.zero_div, Fin.val_zero, if_pos h]; norm_num
  · simp only [Nat.zero_mod, Nat.zero_div, Fin.val_zero, if_neg h]; norm_num

/-- Claim C3: in a state where `mWin` is set, a pointer release changes neither the
target angles nor the current angles nor `mWin`, is ignored and emits no `winGame`,
and so does every further sequence of releases; over any sequence of releases from
any state `winGame` is emitted at most once. -/
theorem win_is_a_latch (s : SwitchRender) (d0 d1 : ℚ) (ds : List (ℚ × ℚ))
    (h : s.mWin = true) :
    mouseReleaseEvent s d0 d1 =
      { state := s, winGame := false, accepted := false, update := false } ∧
    clickAll s ds = (s, 0) ∧
    (∀ (s0 : SwitchRender) (ds0 : List (ℚ × ℚ)), (clickAll s0 ds0).2 ≤ 1) :=
  ⟨mouseReleaseEvent_won s d0 d1 h, clickAll_won s ds h, clickAll_winGame_le_one⟩

/-- A won grid with every target at `1`, clicked on tile `0`, then on tiles `5`, `0`. -/
theorem win_is_a_latch_witness :
    (mouseReleaseEvent
        { mWin := true, mSwitchAngles := fun _ => 1, mSwitchAnglesAspire := fun _ => 1 }
        (vertObjectID 0).1 (vertObjectID 0).2).winGame = false ∧
    (clickAll
        { mWin := true, mSwitchAngles := fun _ => 1, mSwitchAnglesAspire := fun _ => 1 }
        (tilePixels [5, 0])).1.mWin = true := by
  have h := win_is_a_latch
    { mWin := true, mSwitchAngles := fun _ => 1, mSwitchAnglesAspire := fun _ => 1 }
    (vertObjectID 0).1 (vertObjectID 0).2 (tilePixels [5, 0]) rfl
  exact ⟨by rw [h.1], by rw [h.2.1]⟩

/-- Claim C4: for every instance index `i` in `0..15`, the two channels the vertex
shader writes for the visible ID `i + 1` decode, by the formula of `getObjectID`,
to `i` again. -/
theorem objectID_round_trip (i : Fin 16) :
    getObjectID (vertObjectID i.val).1 (vertObjectID i.val).2 = (i.val : Int) :=
  getObjectID_vertObjectID i

/-- Claim C5: in every state reachable from the constructor by new games, pointer
releases and frames with non-negative elapsed time, each tile has its current angle
at most its target angle. -/
theorem current_le_target (s : SwitchRender) (h : Reachable s) (t : Fin 16) :
    s.mSwitchAngles t ≤ s.mSwitchAnglesAspire t := by
  induction h with
  | construct s0 rand =>
    obtain ⟨-, h2, h3⟩ := init_spec s0 rand
    rw [h2 t, h3 t]
    exact Nat.cast_nonneg _
  | newGame s rand _ _ =>
    obtain ⟨-, h2, h3⟩ := init_spec s rand
    rw [h2 t, h3 t]
    exact Nat.cast_nonneg _
  | click s d0 d1 _ ih =>
    obtain ⟨h1, h2⟩ := mouseReleaseEvent_mono s d0 d1
    rw [h1]
    exact le_trans ih (h2 t)
  | frame s elapsed _ _ ih =>
    obtain ⟨-, h2, h3, -⟩ := paint_spec s elapsed
    rw [h2, h3 t]
    exact advanced_le _ _ _ ih

/-- A new game drawing `1` everywhere, a release on tile `0`, then a frame of 16 ms:
tile `0` is drawn at an angle no larger than its target. -/
theorem current_le_target_witness :
    (paint (mouseReleaseEvent
        (init { mWin := false, mSwitchAngles := fun _ => 0, mSwitchAnglesAspire := fun _ => 0 }
          (fun _ => 1))
        (vertObjectID 0).1 (vertObjectID 0).2).state 16).1.mSwitchAngles 0 ≤
    (paint (mouseReleaseEvent
        (init { mWin := false, mSwitchAngles := fun _ => 0, mSwitchAnglesAspire := fun _ => 0 }
          (fun _ => 1))
        (vertObjectID 0).1 (vertObjectID 0).2).state 16).1.mSwitchAnglesAspire 0 :=
  current_le_target _
    (Reachable.frame _ 16 (Reachable.click _ _ _ (Reachable.construct _ _)) (by decide)) 0

/-- Claim C6: a frame with `elapsed` milliseconds moves every tile whose current angle
is below its target to `min (current + elapsed * 0.003) target`, leaves the other
current angles, every target angle and the win flag as they were, and asks for another
frame exactly when some tile was below its target; when every tile is at its target
the state is unchanged and no frame is asked for. -/
theorem paint_advances (s : SwitchRender) (elapsed : Int) :
    (∀ t, s.mSwitchAngles t < s.mSwitchAnglesAspire t →
      (paint s elapsed).1.mSwitchAngles t =
        min (s.mSwitchAngles t + (elapsed : ℚ) * 0.003) (s.mSwitchAnglesAspire t)) ∧
    (∀ t, s.mSwitchAnglesAspire t ≤ s.mSwitchAngles t →
      (paint s elapsed).1.mSwitchAngles t = s.mSwitchAngles t) ∧
    (paint s elapsed).1.mSwitchAnglesAspire = s.mSwitchAnglesAspire ∧
    (paint s elapsed).1.mWin = s.mWin ∧
    ((paint s elapsed).2 = true ↔ ∃ t, s.mSwitchAngles t < s.mSwitchAnglesAspire t) ∧
    ((∀ t, s.mSwitchAngles t = s.mSwitchAnglesAspire t) →
      (paint s elapsed).1 = s ∧ (paint s elapsed).2 = false) := by
  obtain ⟨h1, h2, h3, h4⟩ := paint_spec s elapsed
  refine ⟨fun t ht => ?_, fun t ht => ?_, h2, h1, h4, fun hall => ⟨?_, ?_⟩⟩
  · rw [h3 t, advanced, if_pos ht]
  · rw [h3 t, advanced, if_neg (not_lt.mpr ht)]
  · have hang : (paint s elapsed).1.mSwitchAngles = s.mSwitchAngles := by
      funext t
      rw [h3 t, advanced, if_neg (not_lt.mpr (le_of_eq (hall t).symm))]
    cases hp : (paint s elapsed).1 with
    | mk w c a =>
      rw [hp] at h1 h2 hang
      cases s
      simp only at h1 h2 hang
      rw [h1, h2, hang]
  · cases hb : (paint s elapsed).2 with
    | false => rfl
    | true =>
      obtain ⟨t, ht⟩ := h4.mp hb
      exact absurd ht (by rw [hall t]; exact lt_irrefl _)

/-- A tile at `0` heading for `1` is drawn at `0.048` after 16 ms and a further frame
is asked for; a grid at rest stays as it is. -/
theorem paint_advances_witness :
    (paint { mWin := false, mSwitchAngles := fun _ => 0, mSwitchAnglesAspire := fun _ => 1 }
      16).1.mSwitchAngles 3 = 48 / 1000 ∧
    (paint { mWin := false, mSwitchAngles := fun _ => 1, mSwitchAnglesAspire := fun _ => 1 }
      16).2 = false := by
  refine ⟨?_, ?_⟩
  · rw [(paint_advances
      { mWin := false, mSwitchAngles := fun _ => 0, mSwitchAnglesAspire := fun _ => 1 }
      16).1 3 (by norm_num)]
    norm_num
  · exact ((paint_advances
      { mWin := false, mSwitchAngles := fun _ => 1, mSwitchAnglesAspire := fun _ => 1 }
      16).2.2.2.2.2 (fun _ => rfl)).2

/-- Claim C9: the cleared ID pixel decodes to `-1`; a pointer release whose pixel
decodes to a negative index changes nothing, is ignored and emits no `winGame`;
the pixel of every instance `0..15` decodes to a non-negative index. -/
theorem miss_is_ignored (s : SwitchRender) (d0 d1 : ℚ) (h : getObjectID d0 d1 < 0) :
    getObjectID 0 0 = -1 ∧
    mouseReleaseEvent s d0 d1 =
      { state := s, winGame := false, accepted := false, update := false } ∧
    (∀ i : Fin 16, 0 ≤ getObjectID (vertObjectID i.val).1 (vertObjectID i.val).2) := by
  refine ⟨getObjectID_background, mouseReleaseEvent_miss s d0 d1 h, fun i => ?_⟩
  rw [getObjectID_vertObjectID i]
  exact Int.natCast_nonneg _

/-- A release on the background of a fresh grid with every target at `1`. -/
theorem miss_is_ignored_witness :
    getObjectID 0 0 < 0 ∧
    (mouseReleaseEvent
      { mWin := false, mSwitchAngles := fun _ => 0, mSwitchAnglesAspire := fun _ => 1 }
      0 0).accepted = false := by
  have hneg : getObjectID 0 0 < 0 := by rw [getObjectID_background]; decide
  refine ⟨hneg, ?_⟩
  rw [(miss_is_ignored
    { mWin := false, mSwitchAngles := fun _ => 0, mSwitchAnglesAspire := fun _ => 1 }
    0 0 hneg).2.1]

/-- Claim C2, refuted as stated: from the new game that draws `1` on the row and the
column of tile `0` and `0` elsewhere, a release on tile `0` leaves every target with
an even integer part, and the win flag is not set. -/
theorem win_iff_all_even_fails :
    (init blank crossBits).mWin = false ∧
    getObjectID (vertObjectID 0).1 (vertObjectID 0).2 = 0 ∧
    (∀ t, ⌊(mouseReleaseEvent (init blank crossBits)
        (vertObjectID 0).1 (vertObjectID 0).2).state.mSwitchAnglesAspire t⌋ % 2 = 0) ∧
    (mouseReleaseEvent (init blank crossBits)
        (vertObjectID 0).1 (vertObjectID 0).2).state.mWin = false := by
  obtain ⟨hw, -, ha⟩ := init_spec blank crossBits
  have hid : getObjectID (vertObjectID 0).1 (vertObjectID 0).2 = 0 :=
    getObjectID_vertObjectID 0
  have hit := mouseReleaseEvent_hit (init blank crossBits)
    (vertObjectID 0).1 (vertObjectID 0).2 hw (by rw [hid])
  have hval : ∀ t, (mouseReleaseEvent (init blank crossBits)
      (vertObjectID 0).1 (vertObjectID 0).2).state.mSwitchAnglesAspire t =
      if t.val % 4 = 0 ∨ t.val / 4 = 0 then 2 else 0 := by
    intro t
    rw [hit.1, hid, toggled, ha t]
    fin_cases t <;> norm_num [crossBits]
  refine ⟨hw, hid, fun t => ?_, ?_⟩
  · rw [hval t]
    split <;> norm_num
  · cases hm : (mouseReleaseEvent (init blank crossBits)
        (vertObjectID 0).1 (vertObjectID 0).2).state.mWin with
    | false => rfl
    | true =>
      have h0 := hit.2.2.1.mp hm 0
      rw [hval 0] at h0
      norm_num [static_cast_int] at h0

/-- Claim C2, amended: from a grid that is not won, after a pointer release whose pixel
decodes to a non-negative index, and after any further such releases, `mWin` is set
if and only if every target angle has an odd integer part (`static_cast<int>` leaves
remainder `1` modulo `2`); when the targets started non-negative that integer part is
the floor. -/
theorem win_iff_all_odd (s : SwitchRender) (d0 d1 : ℚ) (ds : List (ℚ × ℚ))
    (hw : s.mWin = false) (h0 : 0 ≤ getObjectID d0 d1)
    (hds : ∀ d ∈ ds, 0 ≤ getObjectID d.1 d.2) :
    ((mouseReleaseEvent s d0 d1).state.mWin = true ↔
      ∀ t, Int.tmod (static_cast_int
        ((mouseReleaseEvent s d0 d1).state.mSwitchAnglesAspire t)) 2 = 1) ∧
    ((clickAll s ((d0, d1) :: ds)).1.mWin = true ↔
      ∀ t, Int.tmod (static_cast_int
        ((clickAll s ((d0, d1) :: ds)).1.mSwitchAnglesAspire t)) 2 = 1) ∧
    ((∀ t, 0 ≤ s.mSwitchAnglesAspire t) →
      ((clickAll s ((d0, d1) :: ds)).1.mWin = true ↔
        ∀ t, ⌊(clickAll s ((d0, d1) :: ds)).1.mSwitchAnglesAspire t⌋ % 2 = 1)) := by
  have h1 := (mouseReleaseEvent_hit s d0 d1 hw h0).2.2.1
  have h2 := clickAll_win_iff (mouseReleaseEvent s d0 d1).state ds h1 hds
  refine ⟨h1, h2, fun hpos => ?_⟩
  have h3 : (clickAll s ((d0, d1) :: ds)).1.mWin = true ↔
      ∀ t, Int.tmod (static_cast_int
        ((clickAll s ((d0, d1) :: ds)).1.mSwitchAnglesAspire t)) 2 = 1 := h2
  rw [h3]
  constructor
  · intro h t
    rw [← static_cast_int_of_nonneg _ (clickAll_nonneg s _ hpos t)]
    exact h t
  · intro h t
    rw [static_cast_int_of_nonneg _ (clickAll_nonneg s _ hpos t)]
    exact h t

/-- With `0` on the row and the column of tile `0` and `1` on the nine other tiles, a
release on tile `0` brings every target to `1` and sets the win flag. -/
theorem win_iff_all_odd_witness :
    (mouseReleaseEvent
      { mWin := false, mSwitchAngles := fun _ => 0,
        mSwitchAnglesAspire := fun t => if t.val % 4 = 0 ∨ t.val / 4 = 0 then 0 else 1 }
      (vertObjectID 0).1 (vertObjectID 0).2).state.mWin = true := by
  have hid : getObjectID (vertObjectID 0).1 (vertObjectID 0).2 = 0 :=
    getObjectID_vertObjectID 0
  have hit := mouseReleaseEvent_hit
    { mWin := false, mSwitchAngles := fun _ => 0,
      mSwitchAnglesAspire := fun t => if t.val % 4 = 0 ∨ t.val / 4 = 0 then 0 else 1 }
    (vertObjectID 0).1 (vertObjectID 0).2 rfl (by rw [hid])
  refine (win_iff_all_odd
    { mWin := false, mSwitchAngles := fun _ => 0,
      mSwitchAnglesAspire := fun t => if t.val % 4 = 0 ∨ t.val / 4 = 0 then 0 else 1 }
    (vertObjectID 0).1 (vertObjectID 0).2 [] rfl (by rw [hid])
    (fun d hd => absurd hd (List.not_mem_nil d))).1.mpr (fun t => ?_)
  rw [hit.1, hid, toggled]
  fin_cases t <;> norm_num [static_cast_int] <;> rfl

/-- Claim C8, refuted as stated: a new game that draws `0` for every tile has every
target angle at `0` and the win flag cleared. -/
theorem init_all_even_not_won :
    (init blank (fun _ => 0)).mWin = false ∧
    (∀ t, (init blank (fun _ => 0)).mSwitchAnglesAspire t = 0) := by
  obtain ⟨hw, -, ha⟩ := init_spec blank (fun _ => 0)
  exact ⟨hw, fun t => by rw [ha t]; norm_num⟩

/-- Claim C8, amended: a grid whose targets are all even does not report "won" without
a click. When a new game draws an even value for every tile, every target angle is `0`
and the win flag is cleared after `init`, and both stay so through any number of
frames painted before the first pointer release, whatever the elapsed times. -/
theorem all_even_deal_not_won (s0 : SwitchRender) (rand : Fin 16 → Nat) (dt : Nat → Int)
    (n : Nat) (h : ∀ t, rand t % 2 = 0) :
    (init s0 rand).mWin = false ∧
    (∀ t, (init s0 rand).mSwitchAnglesAspire t = 0) ∧
    (paintSeq (init s0 rand) dt n).mWin = false ∧
    (∀ t, (paintSeq (init s0 rand) dt n).mSwitchAnglesAspire t = 0) := by
  obtain ⟨hw, -, ha⟩ := init_spec s0 rand
  obtain ⟨k1, k2⟩ := paintSeq_keeps (init s0 rand) dt n
  have hzero : ∀ t, (init s0 rand).mSwitchAnglesAspire t = 0 := by
    intro t
    rw [ha t, h t]
    exact Nat.cast_zero
  refine ⟨hw, hzero, ?_, fun t => ?_⟩
  · rw [k1, hw]
  · rw [k2, hzero t]

/-- The deal of all zeros, watched for three frames 16 ms apart: not won. -/
theorem all_even_deal_not_won_witness :
    (paintSeq (init blank (fun _ => 0)) (fun _ => 16) 3).mWin = false ∧
    (paintSeq (init blank (fun _ => 0)) (fun _ => 16) 3).mSwitchAnglesAspire 5 = 0 :=
  ⟨(all_even_deal_not_won blank (fun _ => 0) (fun _ => 16) 3 (fun _ => rfl)).2.2.1,
   (all_even_deal_not_won blank (fun _ => 0) (fun _ => 16) 3 (fun _ => rfl)).2.2.2 5⟩

/-- Claim C10: whatever bits a new game draws, there is a non-empty sequence of tiles
such that releasing the pointer on them in turn ends with `mWin` set; and releasing on
the seven tiles of the row and column of a tile `u` toggles `u` an odd number of times
and every other tile an even number of times. -/
theorem every_new_game_is_winnable (s0 : SwitchRender) (rand : Fin 16 → Nat) :
    (∃ ids : List (Fin 16), ids ≠ [] ∧
      (clickAll (init s0 rand) (tilePixels ids)).1.mWin = true) ∧
    (∀ u t : Fin 16, (cross u).length = 7 ∧
      ((cross u).countP (fun c => affects c t) % 2 = 1 ↔ t = u)) := by
  obtain ⟨hw, -, ha⟩ := init_spec s0 rand
  refine ⟨⟨solution (fun t => rand t % 2), List.cons_ne_nil _ _, ?_⟩, fun u t => ⟨?_, ?_⟩⟩
  · exact clickAll_wins _ (List.cons_ne_nil _ _) _ (fun t => rand t % 2) hw (funext ha)
      (solution_odd _)
  · revert u; decide
  · rw [cross_parity]
    by_cases h : t = u <;> simp [h]

/-- Claim C7: from a state with every current angle at most its target, for every
sequence of positive elapsed times (whole milliseconds) and every `ε > 0` there is a
number `n` of consecutive frames after which every current angle is within `ε` of
its target. -/
theorem animation_converges (s : SwitchRender) (dt : Nat → Int) (ε : ℚ)
    (h : ∀ t, s.mSwitchAngles t ≤ s.mSwitchAnglesAspire t) (hdt : ∀ k, 0 < dt k)
    (hε : 0 < ε) :
    ∃ n, ∀ t, |(paintSeq s dt n).mSwitchAnglesAspire t - (paintSeq s dt n).mSwitchAngles t| < ε := by
  obtain ⟨n, hn⟩ := paintSeq_reaches s dt h hdt
  refine ⟨n, fun t => ?_⟩
  rw [hn t, sub_self, abs_zero]
  exact hε

/-- Every tile at `0` heading for `1`, frames 16 ms apart, tolerance one hundredth. -/
theorem animation_converges_witness :
    ∃ n, ∀ t,
      |(paintSeq { mWin := false, mSwitchAngles := fun _ => 0, mSwitchAnglesAspire := fun _ => 1 }
          (fun _ => 16) n).mSwitchAnglesAspire t -
        (paintSeq { mWin := false, mSwitchAngles := fun _ => 0, mSwitchAnglesAspire := fun _ => 1 }
          (fun _ => 16) n).mSwitchAngles t| < 1 / 100 :=
  animation_converges
    { mWin := false, mSwitchAngles := fun _ => 0, mSwitchAnglesAspire := fun _ => 1 }
    (fun _ => 16) (1 / 100) (fun _ => zero_le_one) (fun _ => (by decide : (0 : Int) < 16))
    (by norm_num)

end Switch
